import Mathlib

/-!
# Han-Carlson cell planner (`planning-src/adders/han-carlson.c`)

A shallow embedding of the `main` function of `han-carlson.c` and a verification
of its stage-by-stage cell classification.

## Modelling conventions

* The program prints text.  The embedding keeps the structure of what is printed:
  one `StageLine` per `printf("Stage %2d: ", j)`, holding the cell tokens printed
  on that line, in print order.  The two banner lines (source lines 14 and 16) carry
  no cell and are left out.
* `xlen`, `i` and the printed numbers are C `int`s.  They are modelled by `Int`
  without wrap-around: in the loops `0 <= i < xlen`, `i + 1 <= xlen`, and
  `pow(2,j) <= xlen` whenever a stage is printed, so no `int` expression of the
  loop body leaves the `int` range.  `/` and `%` are C's truncating operations,
  `Int.tdiv` and `Int.tmod`.
* `log2(xlen)` and `pow(2,j)` are `double`s.  `pow(2,j)` is the exact power of two
  (it is representable for every `j` the loop reaches).  The comparisons of the
  `int` `j` with `log2(xlen)` are modelled over the reals, with the IEEE
  conventions `log2(0) = -inf` and `log2(negative) = NaN` (every comparison with
  NaN is false); see `leLog2`, `ltLog2`, `eqLog2`.  For an `int` `xlen >= 1` the
  rounded `log2(xlen)` is the integer `k` exactly when `xlen = 2^k`, and otherwise
  lies strictly between the same two integers as the real logarithm (the distance
  of `log2(xlen)` to the nearest integer is at least `6e-10` for `xlen < 2^31`, far
  above the rounding error of a `double` near 31), so the three tests have the
  values given here.
-/

namespace HanCarlson

/-- A cell token printed on a stage line.  Each constructor is one of the four
`printf` calls of the loop body, with the integers it prints:
`black i s t` is `"b:%2d=>(%2d,%2d) "` (source line 30),
`grey i s t` is `"g:%2d=>(%2d,%2d) "` printed by the "grey cells 1" test (line 39),
`greyEnd i s t` is `"g:%2d=>(%2d,%2d) "` printed by the "grey cells end" test (line 50),
`pass i` is `"p:%2d          "` (line 60). -/
inductive Token where
  | black (i s t : Int)
  | grey (i s t : Int)
  | greyEnd (i s t : Int)
  | pass (i : Int)
  deriving DecidableEq

/-- One printed line `Stage j: tok tok ...`. -/
structure StageLine where
  idx : Nat
  toks : List Token
  deriving DecidableEq

/-- The C test `j <= log2(xlen)` (loop condition, line 18).  Over the reals, for
`xlen >= 1`, `j <= log2(xlen)` is `2^j <= xlen`; for `xlen <= 0` the test is false
(`-inf` or NaN), and so is `2^j <= xlen`. -/
def leLog2 (j : Nat) (xlen : Int) : Prop := (2 : Int) ^ j ≤ xlen

/-- The C test `j < log2(xlen)` (line 55): `2^j < xlen`, false for `xlen <= 0`. -/
def ltLog2 (j : Nat) (xlen : Int) : Prop := (2 : Int) ^ j < xlen

/-- The C test `j == log2(xlen)` (lines 46 and 57): `2^j = xlen`, false for
`xlen <= 0`. -/
def eqLog2 (j : Nat) (xlen : Int) : Prop := (2 : Int) ^ j = xlen

instance (j : Nat) (xlen : Int) : Decidable (leLog2 j xlen) :=
  inferInstanceAs (Decidable ((2 : Int) ^ j ≤ xlen))

instance (j : Nat) (xlen : Int) : Decidable (ltLog2 j xlen) :=
  inferInstanceAs (Decidable ((2 : Int) ^ j < xlen))

instance (j : Nat) (xlen : Int) : Decidable (eqLog2 j xlen) :=
  inferInstanceAs (Decidable ((2 : Int) ^ j = xlen))

/-- The body of the inner loop (lines 23-61) for stage `j` and bit `i`: four
independent `if` statements, each printing at most one token. -/
def cell (xlen : Int) (j : Nat) (i : Int) : List Token :=
  (if i.tmod 2 = 1 ∧ (i + 1).tdiv 2 > (2 : Int) ^ j
    then [Token.black i ((j : Int) - 1) (i - (2 : Int) ^ j)] else [])
  ++ (if i.tmod 2 = 1 ∧ (i + 1).tdiv 2 ≤ (2 : Int) ^ j ∧ i ≥ (2 : Int) ^ j
    then [Token.grey i ((j : Int) - 1) (i - (2 : Int) ^ j)] else [])
  ++ (if i.tmod 2 = 0 ∧ eqLog2 j xlen ∧ i > 0
    then [Token.greyEnd i ((j : Int) - 1) (i - 1)] else [])
  ++ (if ((i < (2 : Int) ^ j ∨ i.tmod 2 = 0) ∧ ltLog2 j xlen)
        ∨ ((i.tmod 2 = 1 ∨ i = 0) ∧ eqLog2 j xlen)
    then [Token.pass i] else [])

/-- The inner loop `for (int i = xlen-1; i >= 0; i--)` (line 21), as a function of
`k = i + 1`: `row xlen j k` is what the loop prints from `i = k - 1` down to `0`. -/
def row (xlen : Int) (j : Nat) : Nat → List Token
  | 0 => []
  | k + 1 => cell xlen j (k : Int) ++ row xlen j k

/-- The outer loop `for (int j = 0; j <= log2(xlen); j++)` (line 18), from the
current value of `j` on.  The inner loop starts at `i = xlen - 1`, that is
`k = xlen` (or no iteration at all for `xlen <= 0`). -/
def stageLoop (xlen : Int) (j : Nat) : List StageLine :=
  if leLog2 j xlen then
    { idx := j, toks := row xlen j xlen.toNat } :: stageLoop xlen (j + 1)
  else []
termination_by xlen.toNat + 1 - j
decreasing_by
  rename_i h
  have h1 : j < 2 ^ j := Nat.lt_two_pow j
  have h2 : ((2 ^ j : Nat) : Int) ≤ xlen := by
    simpa [leLog2] using h
  omega

/-- The program: `argv1` is `atoi(argv[1])` when an argument is given (`argc > 1`),
and `xlen` keeps its initial value 8 otherwise (lines 10-13). -/
def main (argv1 : Option Int) : List StageLine :=
  stageLoop (argv1.getD 8) 0

/-- The bit position a token is printed for (its first `%2d`). -/
def Token.bit : Token → Int
  | .black i _ _ => i
  | .grey i _ _ => i
  | .greyEnd i _ _ => i
  | .pass i => i

/-- The bit whose previous-stage value a combining cell consumes (the last `%2d`
of a `b:` or `g:` token); a `p:` token has none. -/
def Token.target : Token → Option Int
  | .black _ _ t => some t
  | .grey _ _ t => some t
  | .greyEnd _ _ t => some t
  | .pass _ => none

/-- The annotations of position `i` in stage `j`: the tokens printed for bit `i`
on the lines labelled `Stage j`, in print order. -/
def annotsAt (out : List StageLine) (j : Nat) (i : Int) : List Token :=
  (out.filter (fun l => l.idx = j)).flatMap
    (fun l => l.toks.filter (fun tok => tok.bit = i))

/-- Stage `j` is emitted: some printed line is labelled `Stage j`. -/
def stagePrinted (out : List StageLine) (j : Nat) : Prop :=
  ∃ l ∈ out, l.idx = j

/-- One stage of the range bookkeeping of a prefix network: `prev i` is the lowest
bit covered by position `i` before the stage.  A position carrying a combining
token (black or grey) with target `t` takes over the low end of `t`; any other
position keeps its own. -/
def loStep (prev : Int → Int) (l : StageLine) (i : Int) : Int :=
  match (l.toks.filter (fun tok => tok.bit = i)).findSome? Token.target with
  | some t => prev t
  | none => prev i

/-- The low end of the bit range covered by each position after all the printed
stages, starting from `lo(-1, i) = i`. -/
def lo (out : List StageLine) : Int → Int :=
  out.foldl loStep id

/-- The low ends `lo(n-1, .)` after the printed stages with index below `n`:
`loStage out 0 i = i` is `lo(-1, i)`, and `loStage out (j+1) i` is `lo(j, i)`. -/
def loStage (out : List StageLine) (n : Nat) : Int → Int :=
  lo (out.filter (fun l => l.idx < n))

/-- The line the program prints for stage `j`. -/
def stageLine (xlen : Int) (j : Nat) : StageLine :=
  { idx := j, toks := row xlen j xlen.toNat }

/-- Closed form of the low end of position `i` after `n` stages that all ran the
"not on last row" rules: an odd position has merged the `2^n - 1` positions below
it (as far as they exist), an even position is untouched. -/
def loInterior (n : Nat) (i : Int) : Int :=
  if i % 2 = 1 then max 0 (i + 1 - (2 : Int) ^ n) else i

/-- The number of binary digits of `m`, with `bitLength 0 = 0`. -/
def bitLength (m : Nat) : Nat :=
  (Nat.digits 2 m).length

/-- The stage count of the specification, `S = floor(log2 N) + 1`. -/
def specStageCount (N : Int) : Nat :=
  Nat.log 2 N.toNat + 1

/-- The four classification rules in the words of the specification (section 4.1),
for a stage count `S`, with `halfpow = 2^j` and bottom stage `S - 1`; each rule
that applies contributes its annotation. -/
def specRules (S : Nat) (j : Nat) (i : Int) : List Token :=
  (if i % 2 = 1 ∧ (i + 1) / 2 > (2 : Int) ^ j
    then [Token.black i ((j : Int) - 1) (i - (2 : Int) ^ j)] else [])
  ++ (if i % 2 = 1 ∧ (i + 1) / 2 ≤ (2 : Int) ^ j ∧ i ≥ (2 : Int) ^ j
    then [Token.grey i ((j : Int) - 1) (i - (2 : Int) ^ j)] else [])
  ++ (if j = S - 1 ∧ i % 2 = 0 ∧ i > 0
    then [Token.greyEnd i ((j : Int) - 1) (i - 1)] else [])
  ++ (if (j < S - 1 ∧ (i < (2 : Int) ^ j ∨ i % 2 = 0))
        ∨ (j = S - 1 ∧ (i % 2 = 1 ∨ i = 0))
    then [Token.pass i] else [])

/-! ## Unfolding the loops -/

theorem stageLoop_pos {xlen : Int} {j : Nat} (h : (2 : Int) ^ j ≤ xlen) :
    stageLoop xlen j
      = { idx := j, toks := row xlen j xlen.toNat } :: stageLoop xlen (j + 1) := by
  rw [stageLoop, if_pos (show leLog2 j xlen from h)]

theorem stageLoop_neg {xlen : Int} {j : Nat} (h : ¬ (2 : Int) ^ j ≤ xlen) :
    stageLoop xlen j = [] := by
  rw [stageLoop, if_neg (show ¬ leLog2 j xlen from h)]

theorem two_pow_mono_int {a b : Nat} (h : a ≤ b) : (2 : Int) ^ a ≤ (2 : Int) ^ b :=
  pow_le_pow_right₀ (by norm_num) h

/-- Bits printed by one cell body are all the bit `i` of that iteration. -/
theorem bit_of_mem_cell {xlen : Int} {j : Nat} {i : Int} {tok : Token}
    (h : tok ∈ cell xlen j i) : tok.bit = i := by
  unfold cell at h
  simp only [List.mem_append] at h
  rcases h with ((h | h) | h) | h <;> split at h <;> simp at h <;> subst h <;> rfl

theorem filter_cell_self (xlen : Int) (j : Nat) (i : Int) :
    (cell xlen j i).filter (fun tok => tok.bit = i) = cell xlen j i := by
  rw [List.filter_eq_self]
  intro tok h
  simp [bit_of_mem_cell h]

theorem filter_cell_ne (xlen : Int) (j : Nat) {i i' : Int} (h : i' ≠ i) :
    (cell xlen j i').filter (fun tok => tok.bit = i) = [] := by
  rw [List.filter_eq_nil_iff]
  intro tok ht
  simp [bit_of_mem_cell ht, h]

theorem filter_row (xlen : Int) (j : Nat) (i : Int) (k : Nat) :
    (row xlen j k).filter (fun tok => tok.bit = i)
      = if 0 ≤ i ∧ i < k then cell xlen j i else [] := by
  induction k with
  | zero =>
    have : ¬ (0 ≤ i ∧ i < ((0 : Nat) : Int)) := by omega
    simp [row, this]
  | succ k ih =>
    rw [row, List.filter_append, ih]
    by_cases hik : i = (k : Int)
    · subst hik
      rw [filter_cell_self]
      have h1 : ¬ (0 ≤ (k : Int) ∧ (k : Int) < (k : Int)) := by omega
      have h2 : (0 ≤ (k : Int) ∧ (k : Int) < ((k + 1 : Nat) : Int)) := by omega
      rw [if_neg h1, if_pos h2, List.append_nil]
    · rw [filter_cell_ne xlen j (Ne.symm hik), List.nil_append]
      by_cases h1 : 0 ≤ i ∧ i < (k : Int)
      · have h2 : (0 ≤ i ∧ i < ((k + 1 : Nat) : Int)) := by omega
        rw [if_pos h1, if_pos h2]
      · have h2 : ¬ (0 ≤ i ∧ i < ((k + 1 : Nat) : Int)) := by omega
        rw [if_neg h1, if_neg h2]

theorem filter_stageLoop (xlen : Int) (j : Nat) (d : Nat) :
    ∀ j0 : Nat, xlen.toNat + 1 - j0 = d →
    (stageLoop xlen j0).filter (fun l => l.idx = j)
      = if j0 ≤ j ∧ (2 : Int) ^ j ≤ xlen
          then [{ idx := j, toks := row xlen j xlen.toNat }] else [] := by
  induction d with
  | zero =>
    intro j0 hd
    have h1 : (j0 : Int) < (2 : Int) ^ j0 := by exact_mod_cast Nat.lt_two_pow j0
    have h2 : ¬ (2 : Int) ^ j0 ≤ xlen := by omega
    rw [stageLoop_neg h2]
    have h3 : ¬ (j0 ≤ j ∧ (2 : Int) ^ j ≤ xlen) := by
      rintro ⟨ha, hb⟩
      exact h2 (le_trans (two_pow_mono_int ha) hb)
    rw [if_neg h3]; rfl
  | succ d ih =>
    intro j0 hd
    by_cases h : (2 : Int) ^ j0 ≤ xlen
    · rw [stageLoop_pos h, List.filter_cons, ih (j0 + 1) (by omega)]
      by_cases hj : j0 = j
      · subst hj
        simp [h]
      · have : (j0 ≤ j ∧ (2 : Int) ^ j ≤ xlen) ↔ (j0 + 1 ≤ j ∧ (2 : Int) ^ j ≤ xlen) := by
          constructor <;> rintro ⟨a, b⟩ <;> exact ⟨by omega, b⟩
        simp [hj, this]
    · rw [stageLoop_neg h]
      have h3 : ¬ (j0 ≤ j ∧ (2 : Int) ^ j ≤ xlen) := by
        rintro ⟨ha, hb⟩
        exact h (le_trans (two_pow_mono_int ha) hb)
      rw [if_neg h3]; rfl

theorem annotsAt_main (N : Int) (j : Nat) (i : Int) :
    annotsAt (main (some N)) j i
      = if (2 : Int) ^ j ≤ N ∧ 0 ≤ i ∧ i < N then cell N j i else [] := by
  unfold annotsAt main
  simp only [Option.getD_some]
  rw [filter_stageLoop N j _ 0 rfl]
  by_cases h : (2 : Int) ^ j ≤ N
  · have hN : 0 ≤ N := le_trans (by positivity) h
    simp only [Nat.zero_le, true_and, h, if_true, List.flatMap_cons, List.flatMap_nil,
      List.append_nil]
    rw [filter_row, Int.toNat_of_nonneg hN]
  · simp [h]

theorem stagePrinted_main (N : Int) (j : Nat) :
    stagePrinted (main (some N)) j ↔ (2 : Int) ^ j ≤ N := by
  unfold stagePrinted
  have h := filter_stageLoop N j _ 0 rfl
  constructor
  · rintro ⟨l, hl, hj⟩
    by_contra hc
    have hmem : l ∈ (stageLoop N 0).filter (fun l => l.idx = j) := by
      rw [List.mem_filter]; exact ⟨hl, by simpa using hj⟩
    rw [h, if_neg (fun hh => hc hh.2)] at hmem
    simp at hmem
  · intro hp
    have hmem : ({ idx := j, toks := row N j N.toNat } : StageLine)
        ∈ (stageLoop N 0).filter (fun l => l.idx = j) := by
      rw [h, if_pos ⟨Nat.zero_le _, hp⟩]; simp
    rw [List.mem_filter] at hmem
    exact ⟨_, hmem.1, rfl⟩

theorem leLog2_iff {N : Int} (hN : 1 ≤ N) (j : Nat) :
    (2 : Int) ^ j ≤ N ↔ j ≤ Nat.log 2 N.toNat := by
  have hn : N.toNat ≠ 0 := by omega
  rw [← Nat.pow_le_iff_le_log (by decide) hn]
  have hc : ((N.toNat : Nat) : Int) = N := Int.toNat_of_nonneg (by omega)
  constructor
  · intro h
    have : ((2 ^ j : Nat) : Int) ≤ ((N.toNat : Nat) : Int) := by rw [hc]; exact_mod_cast h
    exact_mod_cast this
  · intro h
    have : ((2 ^ j : Nat) : Int) ≤ ((N.toNat : Nat) : Int) := by exact_mod_cast h
    rw [hc] at this
    exact_mod_cast this

theorem map_idx_stageLoop (N : Int) (hN : 1 ≤ N) (d : Nat) :
    ∀ j0 : Nat, j0 + d = Nat.log 2 N.toNat + 1 →
      (stageLoop N j0).map StageLine.idx = List.range' j0 d := by
  induction d with
  | zero =>
    intro j0 h
    have : ¬ (2 : Int) ^ j0 ≤ N := by rw [leLog2_iff hN]; omega
    rw [stageLoop_neg this]; rfl
  | succ d ih =>
    intro j0 h
    have : (2 : Int) ^ j0 ≤ N := by rw [leLog2_iff hN]; omega
    rw [stageLoop_pos this, List.map_cons, ih (j0 + 1) (by omega)]
    rfl

/-- The cell body for a bit `0 ≤ i`, with C's truncating `/` and `%` replaced by
the floor operations they agree with on non-negative operands. -/
theorem cell_of_nonneg (xlen : Int) (j : Nat) {i : Int} (hi : 0 ≤ i) :
    cell xlen j i =
      (if i % 2 = 1 ∧ (i + 1) / 2 > (2 : Int) ^ j
        then [Token.black i ((j : Int) - 1) (i - (2 : Int) ^ j)] else [])
      ++ (if i % 2 = 1 ∧ (i + 1) / 2 ≤ (2 : Int) ^ j ∧ i ≥ (2 : Int) ^ j
        then [Token.grey i ((j : Int) - 1) (i - (2 : Int) ^ j)] else [])
      ++ (if i % 2 = 0 ∧ (2 : Int) ^ j = xlen ∧ i > 0
        then [Token.greyEnd i ((j : Int) - 1) (i - 1)] else [])
      ++ (if ((i < (2 : Int) ^ j ∨ i % 2 = 0) ∧ (2 : Int) ^ j < xlen)
            ∨ ((i % 2 = 1 ∨ i = 0) ∧ (2 : Int) ^ j = xlen)
        then [Token.pass i] else []) := by
  unfold cell eqLog2 ltLog2
  rw [Int.tmod_eq_emod hi (by decide), Int.tdiv_eq_ediv (by omega) (by decide)]

theorem mem_annotsAt_main {N : Int} {j : Nat} {i : Int} (hj : (2 : Int) ^ j ≤ N)
    (hi0 : 0 ≤ i) (hi : i < N) (tok : Token) :
    tok ∈ annotsAt (main (some N)) j i ↔ tok ∈ cell N j i := by
  rw [annotsAt_main, if_pos ⟨hj, hi0, hi⟩]

/-- The whole output for `xlen = 3`. -/
theorem main_three :
    main (some 3)
      = [{ idx := 0, toks := [Token.pass 2, Token.grey 1 (-1) 0, Token.pass 0] },
         { idx := 1, toks := [Token.pass 2, Token.pass 1, Token.pass 0] }] := by
  unfold main
  simp only [Option.getD_some]
  rw [stageLoop_pos (by decide), stageLoop_pos (by decide), stageLoop_neg (by decide)]
  decide

theorem log_three : Nat.log 2 (3 : Int).toNat = 1 := by
  have h : Nat.log 2 3 = 1 := by
    rw [Nat.log_eq_iff (by decide)]
    decide
  simpa using h

theorem log_six : Nat.log 2 (6 : Int).toNat = 2 := by
  have h : Nat.log 2 6 = 2 := by
    rw [Nat.log_eq_iff (by decide)]
    decide
  simpa using h

theorem log_eight : Nat.log 2 (8 : Int).toNat = 3 := by
  have h : Nat.log 2 8 = 3 := by
    rw [Nat.log_eq_iff (by decide)]
    decide
  simpa using h

/-! ## The claims -/

/-- Claim C1: for every width `N ≥ 1` the program prints exactly
`S = floor(log2 N) + 1` stage lines (`Nat.log 2` is the floor logarithm), labelled
`0, 1, ..., S-1` in this order; in particular at least one. -/
theorem stage_count (N : Int) (hN : 1 ≤ N) :
    (main (some N)).length = Nat.log 2 N.toNat + 1
      ∧ (main (some N)).map StageLine.idx = List.range (Nat.log 2 N.toNat + 1)
      ∧ 1 ≤ (main (some N)).length := by
  have h : (main (some N)).map StageLine.idx = List.range (Nat.log 2 N.toNat + 1) := by
    unfold main
    simp only [Option.getD_some]
    rw [map_idx_stageLoop N hN (Nat.log 2 N.toNat + 1) 0 (by omega), List.range_eq_range']
  have hl : (main (some N)).length = Nat.log 2 N.toNat + 1 := by
    have := congrArg List.length h
    simpa using this
  exact ⟨hl, h, by omega⟩

/-- Claim C1 at `N = 8`. -/
theorem stage_count_witness :
    (1 : Int) ≤ 8
      ∧ (main (some 8)).length = Nat.log 2 (8 : Int).toNat + 1
      ∧ (main (some 8)).map StageLine.idx = List.range (Nat.log 2 (8 : Int).toNat + 1)
      ∧ 1 ≤ (main (some 8)).length :=
  ⟨by decide, stage_count 8 (by decide)⟩

/-- Claim C2: for `N ≥ 1`, an emitted stage `j` and a position `0 ≤ i < N`, a Black
token with source stage `s` and target `t` is printed at `(j, i)` exactly when `i`
is odd, `floor((i+1)/2) > 2^j`, `t = i - 2^j` and `s = j - 1`. -/
theorem black_iff (N : Int) (_hN : 1 ≤ N) (j : Nat) (hj : stagePrinted (main (some N)) j)
    (i : Int) (hi0 : 0 ≤ i) (hi : i < N) (s t : Int) :
    Token.black i s t ∈ annotsAt (main (some N)) j i
      ↔ (i % 2 = 1 ∧ (i + 1) / 2 > (2 : Int) ^ j)
          ∧ t = i - (2 : Int) ^ j ∧ s = (j : Int) - 1 := by
  rw [stagePrinted_main] at hj
  rw [mem_annotsAt_main hj hi0 hi, cell_of_nonneg N j hi0]
  simp only [List.mem_append]
  constructor
  · rintro (((h | h) | h) | h) <;> split at h <;> simp at h
    rename_i hc
    exact ⟨hc, h.2, h.1⟩
  · rintro ⟨hc, rfl, rfl⟩
    rw [if_pos hc]
    simp

/-- Claim C2 at `N = 8`, stage 0, position 7: Black linking to `(-1, 6)`. -/
theorem black_iff_witness :
    Token.black 7 (-1) 6 ∈ annotsAt (main (some 8)) 0 7 :=
  (black_iff 8 (by decide) 0 ((stagePrinted_main 8 0).mpr (by decide)) 7 (by decide)
    (by decide) (-1) 6).mpr (by decide)

/-- Claim C3: for `N ≥ 1`, an emitted stage `j` and a position `0 ≤ i < N`, an
interior Grey token with source stage `s` and target `t` is printed at `(j, i)`
exactly when `i` is odd, `floor((i+1)/2) ≤ 2^j`, `i ≥ 2^j`, `t = i - 2^j` and
`s = j - 1`. -/
theorem grey_iff (N : Int) (_hN : 1 ≤ N) (j : Nat) (hj : stagePrinted (main (some N)) j)
    (i : Int) (hi0 : 0 ≤ i) (hi : i < N) (s t : Int) :
    Token.grey i s t ∈ annotsAt (main (some N)) j i
      ↔ (i % 2 = 1 ∧ (i + 1) / 2 ≤ (2 : Int) ^ j ∧ i ≥ (2 : Int) ^ j)
          ∧ t = i - (2 : Int) ^ j ∧ s = (j : Int) - 1 := by
  rw [stagePrinted_main] at hj
  rw [mem_annotsAt_main hj hi0 hi, cell_of_nonneg N j hi0]
  simp only [List.mem_append]
  constructor
  · rintro (((h | h) | h) | h) <;> split at h <;> simp at h
    rename_i hc
    exact ⟨hc, h.2, h.1⟩
  · rintro ⟨hc, rfl, rfl⟩
    rw [if_pos hc]
    simp

/-- Claim C3 at `N = 8`, stage 2, position 5: Grey linking to `(1, 1)`. -/
theorem grey_iff_witness :
    Token.grey 5 1 1 ∈ annotsAt (main (some 8)) 2 5 :=
  (grey_iff 8 (by decide) 2 ((stagePrinted_main 8 2).mpr (by decide)) 5 (by decide)
    (by decide) 1 1).mpr (by decide)

/-- Claim C4, evaluated at `N = 3`: there `S = 2`, so stage 1 is the last stage
printed, and position 2 is even and positive; yet the only token printed at
`(1, 2)` is `p: 2`, and no bottom Grey token is printed there, because the
bottom-row test `j == log2(xlen)` compares 1 with `log2(3)`. -/
theorem bottom_grey_missing_at_three :
    Nat.log 2 (3 : Int).toNat + 1 = 2
      ∧ stagePrinted (main (some 3)) 1
      ∧ annotsAt (main (some 3)) 1 2 = [Token.pass 2]
      ∧ ∀ s t : Int, Token.greyEnd 2 s t ∉ annotsAt (main (some 3)) 1 2 := by
  have h : annotsAt (main (some 3)) 1 2 = [Token.pass 2] := by
    rw [annotsAt_main]; decide
  refine ⟨by rw [log_three], (stagePrinted_main 3 1).mpr (by decide), h, ?_⟩
  intro s t hmem
  rw [h] at hmem
  simp at hmem

/-- Claim C5, evaluated at `N = 6`: there `S = 3`, so stage 2 is the last stage
printed.  At the odd position 5 the program prints a Grey token and no Pass, and
at the even position 4 it prints Pass, the opposite of the last-row rule, because
the last-row test `j == log2(xlen)` compares 2 with `log2(6)`. -/
theorem pass_misplaced_at_six :
    Nat.log 2 (6 : Int).toNat + 1 = 3
      ∧ stagePrinted (main (some 6)) 2
      ∧ annotsAt (main (some 6)) 2 5 = [Token.grey 5 1 1]
      ∧ annotsAt (main (some 6)) 2 4 = [Token.pass 4] := by
  refine ⟨by rw [log_six], (stagePrinted_main 6 2).mpr (by decide), ?_, ?_⟩
  · rw [annotsAt_main]; decide
  · rw [annotsAt_main]; decide

/-- Claim C6: for `N ≥ 1`, an emitted stage `j` and a position `0 ≤ i < N`, at least
one token is printed at `(j, i)`. -/
theorem every_cell_classified (N : Int) (_hN : 1 ≤ N) (j : Nat)
    (hj : stagePrinted (main (some N)) j) (i : Int) (hi0 : 0 ≤ i) (hi : i < N) :
    1 ≤ (annotsAt (main (some N)) j i).length := by
  rw [stagePrinted_main] at hj
  rw [annotsAt_main, if_pos ⟨hj, hi0, hi⟩, cell_of_nonneg N j hi0]
  generalize (2 : Int) ^ j = p at hj ⊢
  split_ifs <;> first | (simp; done) | omega

/-- Claim C6 at `N = 8`, stage 1, position 4. -/
theorem every_cell_classified_witness :
    1 ≤ (annotsAt (main (some 8)) 1 4).length :=
  every_cell_classified 8 (by decide) 1 ((stagePrinted_main 8 1).mpr (by decide)) 4
    (by decide) (by decide)

/-- Claim C7: for `N ≥ 1`, every combining token (Black, Grey or bottom Grey)
printed at any `(j, i)` has a target `t` with `0 ≤ t < i`. -/
theorem target_below (N : Int) (_hN : 1 ≤ N) (j : Nat) (i : Int) (tok : Token)
    (htok : tok ∈ annotsAt (main (some N)) j i) (t : Int) (ht : tok.target = some t) :
    0 ≤ t ∧ t < i := by
  rw [annotsAt_main] at htok
  split at htok
  · rename_i hc
    obtain ⟨hj, hi0, hi⟩ := hc
    rw [cell_of_nonneg N j hi0] at htok
    have hp : (0 : Int) < (2 : Int) ^ j := by positivity
    generalize (2 : Int) ^ j = p at hj hp htok
    simp only [List.mem_append] at htok
    rcases htok with ((h | h) | h) | h <;> split at h <;> simp at h <;> subst h <;>
      simp [Token.target] at ht <;> omega
  · simp at htok

/-- Claim C7 at `N = 8`, stage 3, position 6: the bottom Grey token has target 5. -/
theorem target_below_witness :
    Token.greyEnd 6 2 5 ∈ annotsAt (main (some 8)) 3 6
      ∧ (0 : Int) ≤ 5 ∧ (5 : Int) < 6 :=
  have h : Token.greyEnd 6 2 5 ∈ annotsAt (main (some 8)) 3 6 := by
    rw [annotsAt_main]; decide
  ⟨h, target_below 8 (by decide) 3 6 (Token.greyEnd 6 2 5) h 5 rfl⟩

/-- Claim C9, evaluated at `N = 3`: after the two printed stages position 2 still
covers only itself, `lo = 2`, not the full prefix `lo = 0`.  No bottom-row cell is
printed for it, since `j == log2(xlen)` never holds for `xlen = 3`. -/
theorem prefix_incomplete_at_three :
    (main (some 3)).length = 2 ∧ lo (main (some 3)) 2 = 2 := by
  rw [main_three]; decide

/-- Claim C10: for `N ≥ 1` with `S = floor(log2 N) + 1`, at an interior stage
`j < S - 1` every even position `0 ≤ i < N` gets Pass and nothing else. -/
theorem even_interior_pass (N : Int) (hN : 1 ≤ N) (S : Nat)
    (hS : S = Nat.log 2 N.toNat + 1) (j : Nat) (hj : j < S - 1)
    (i : Int) (hi0 : 0 ≤ i) (hi : i < N) (hev : i % 2 = 0) :
    annotsAt (main (some N)) j i = [Token.pass i] := by
  have h1 : (2 : Int) ^ (j + 1) ≤ N := by rw [leLog2_iff hN]; omega
  have h2 : (2 : Int) ^ (j + 1) = 2 * (2 : Int) ^ j := by ring
  have hp : (0 : Int) < (2 : Int) ^ j := by positivity
  rw [h2] at h1
  rw [annotsAt_main, if_pos ⟨by omega, hi0, hi⟩, cell_of_nonneg N j hi0]
  generalize (2 : Int) ^ j = p at h1 hp ⊢
  split_ifs <;> first | rfl | omega

/-- Claim C10 at `N = 8` (`S = 4`), stage 2, position 6. -/
theorem even_interior_pass_witness :
    annotsAt (main (some 8)) 2 6 = [Token.pass 6] :=
  even_interior_pass 8 (by decide) 4 (by rw [log_eight]) 2 (by decide) 6
    (by decide) (by decide) (by decide)

/-! ## Structure of the output and range bookkeeping -/

theorem stageLoop_eq_map (N : Int) (hN : 1 ≤ N) (d : Nat) :
    ∀ j0 : Nat, j0 + d = Nat.log 2 N.toNat + 1 →
      stageLoop N j0 = (List.range' j0 d).map (stageLine N) := by
  induction d with
  | zero =>
    intro j0 h
    have : ¬ (2 : Int) ^ j0 ≤ N := by rw [leLog2_iff hN]; omega
    rw [stageLoop_neg this]; rfl
  | succ d ih =>
    intro j0 h
    have : (2 : Int) ^ j0 ≤ N := by rw [leLog2_iff hN]; omega
    rw [stageLoop_pos this, ih (j0 + 1) (by omega)]
    rfl

/-- For `N ≥ 1` the output is the list of the stage lines `0, ..., floor(log2 N)`. -/
theorem main_eq_map (N : Int) (hN : 1 ≤ N) :
    main (some N) = (List.range (Nat.log 2 N.toNat + 1)).map (stageLine N) := by
  unfold main
  simp only [Option.getD_some]
  rw [stageLoop_eq_map N hN (Nat.log 2 N.toNat + 1) 0 (by omega), List.range_eq_range']

theorem length_main (N : Int) (hN : 1 ≤ N) :
    (main (some N)).length = Nat.log 2 N.toNat + 1 := by
  rw [main_eq_map N hN]; simp

theorem filter_lt_range_of_le {n S : Nat} (h : n ≤ S) :
    (List.range S).filter (fun m => decide (m < n)) = List.range n := by
  induction S with
  | zero =>
    have : n = 0 := by omega
    subst this; rfl
  | succ S ih =>
    rw [List.range_succ, List.filter_append]
    by_cases hn : n ≤ S
    · rw [ih hn]
      have : ¬ S < n := by omega
      simp [this]
    · have hn2 : n = S + 1 := by omega
      subst hn2
      have h1 : (List.range S).filter (fun m => decide (m < S + 1)) = List.range S := by
        rw [List.filter_eq_self]
        intro a ha
        have := List.mem_range.mp ha
        simp; omega
      rw [h1, List.range_succ]
      simp

/-- The stages below `n` of the output, for `n` up to the stage count. -/
theorem filter_main_lt (N : Int) (hN : 1 ≤ N) {n : Nat} (hn : n ≤ Nat.log 2 N.toNat + 1) :
    (main (some N)).filter (fun l => l.idx < n) = (List.range n).map (stageLine N) := by
  rw [main_eq_map N hN, List.filter_map]
  have : ((fun l : StageLine => decide (l.idx < n)) ∘ stageLine N)
      = (fun m => decide (m < n)) := by
    funext m; rfl
  rw [this, filter_lt_range_of_le hn]

theorem loStage_zero (out : List StageLine) (i : Int) : loStage out 0 i = i := by
  unfold loStage
  have : out.filter (fun l => decide (l.idx < 0)) = [] := by
    rw [List.filter_eq_nil_iff]; intro a _; simp
  rw [this]; rfl

/-- One more stage: `lo(n, .)` from `lo(n-1, .)` and the line of stage `n`. -/
theorem loStage_succ (N : Int) {n : Nat} (hn : (2 : Int) ^ n ≤ N) (i : Int) :
    loStage (main (some N)) (n + 1) i
      = loStep (loStage (main (some N)) n) (stageLine N n) i := by
  have hN : 1 ≤ N := le_trans (one_le_pow₀ (by norm_num)) hn
  have hL : n ≤ Nat.log 2 N.toNat := (leLog2_iff hN n).mp hn
  unfold loStage
  rw [filter_main_lt N hN (by omega : n + 1 ≤ _), filter_main_lt N hN (by omega : n ≤ _),
    List.range_succ, List.map_append]
  unfold lo
  rw [List.foldl_append]
  rfl

/-- After the last stage nothing is filtered out. -/
theorem loStage_last (N : Int) (hN : 1 ≤ N) :
    loStage (main (some N)) (Nat.log 2 N.toNat + 1) = lo (main (some N)) := by
  unfold loStage
  rw [filter_main_lt N hN (le_refl _), ← main_eq_map N hN]

theorem filter_stageLine (N : Int) (j : Nat) {i : Int} (hi0 : 0 ≤ i) (hi : i < N) :
    (stageLine N j).toks.filter (fun tok => tok.bit = i) = cell N j i := by
  unfold stageLine
  simp only
  rw [filter_row, Int.toNat_of_nonneg (by omega), if_pos ⟨hi0, hi⟩]

/-- The effect on the low ends of a stage that runs the "not on last row" rules. -/
theorem loStep_interior (prev : Int → Int) (N : Int) (j : Nat) (hj : (2 : Int) ^ j < N)
    {i : Int} (hi0 : 0 ≤ i) (hi : i < N) :
    loStep prev (stageLine N j) i
      = if i % 2 = 1 ∧ (2 : Int) ^ j ≤ i then prev (i - (2 : Int) ^ j) else prev i := by
  unfold loStep
  rw [filter_stageLine N j hi0 hi, cell_of_nonneg N j hi0]
  generalize (2 : Int) ^ j = p at hj ⊢
  split_ifs <;> simp [Token.target] <;> omega

/-- The effect on the low ends of the stage recognised as the bottom row. -/
theorem loStep_bottom (prev : Int → Int) (N : Int) (j : Nat) (hj : (2 : Int) ^ j = N)
    {i : Int} (hi0 : 0 ≤ i) (hi : i < N) :
    loStep prev (stageLine N j) i
      = if i % 2 = 0 ∧ 0 < i then prev (i - 1) else prev i := by
  unfold loStep
  rw [filter_stageLine N j hi0 hi, cell_of_nonneg N j hi0]
  generalize (2 : Int) ^ j = p at hj ⊢
  split_ifs <;> simp [Token.target] <;> omega

theorem two_pow_parity (n : Nat) :
    (n = 0 ∧ (2 : Int) ^ n = 1) ∨ (2 : Int) ^ n % 2 = 0 := by
  cases n with
  | zero => left; exact ⟨rfl, rfl⟩
  | succ m =>
    right
    have : (2 : Int) ^ (m + 1) = 2 * (2 : Int) ^ m := by ring
    rw [this]; omega

/-- As long as only "not on last row" stages have run, the low ends follow the
closed form `loInterior`. -/
theorem loStage_interior (N : Int) (n : Nat) :
    (2 : Int) ^ n < 2 * N → ∀ i : Int, 0 ≤ i → i < N →
      loStage (main (some N)) n i = loInterior n i := by
  induction n with
  | zero =>
    intro _ i hi0 _
    rw [loStage_zero]
    unfold loInterior
    simp only [pow_zero]
    split_ifs <;> omega
  | succ n ih =>
    intro h i hi0 hi
    have h2 : (2 : Int) ^ (n + 1) = 2 * (2 : Int) ^ n := by ring
    have hp : (0 : Int) < (2 : Int) ^ n := by positivity
    have hpar := two_pow_parity n
    rw [h2] at h
    have hlt : (2 : Int) ^ n < N := by omega
    rw [loStage_succ N (le_of_lt hlt), loStep_interior _ N n hlt hi0 hi]
    have ih1 := ih (by omega) (i - (2 : Int) ^ n)
    have ih2 := ih (by omega) i hi0 hi
    unfold loInterior at ih1 ih2 ⊢
    rw [h2]
    generalize (2 : Int) ^ n = p at *
    split_ifs with hc ho
    · rw [ih1 (by omega) (by omega)]
      split_ifs <;> omega
    · omega
    · rw [ih2]
      split_ifs
      omega
    · rw [ih2]
      split_ifs
      omega

theorem toNat_two_pow (k : Nat) : ((2 : Int) ^ k).toNat = 2 ^ k := by
  have h : (((2 : Nat) ^ k : Nat) : Int) = (2 : Int) ^ k := by push_cast; rfl
  rw [← h, Int.toNat_natCast]

theorem log_two_pow (k : Nat) : Nat.log 2 ((2 : Int) ^ k).toNat = k := by
  rw [toNat_two_pow, Nat.log_pow (by decide)]

theorem one_le_two_pow_int (k : Nat) : (1 : Int) ≤ (2 : Int) ^ k :=
  one_le_pow₀ (by norm_num)

/-- The low end of a position after an emitted stage `j`, in closed form. -/
theorem loStage_emitted (N : Int) (j : Nat) (hj : (2 : Int) ^ j ≤ N)
    {i : Int} (hi0 : 0 ≤ i) (hi : i < N) :
    loStage (main (some N)) (j + 1) i
      = if (2 : Int) ^ j < N then loInterior (j + 1) i
        else if i % 2 = 0 ∧ 0 < i then loInterior j (i - 1) else loInterior j i := by
  have hp : (0 : Int) < (2 : Int) ^ j := by positivity
  have h2 : (2 : Int) ^ (j + 1) = 2 * (2 : Int) ^ j := by ring
  by_cases hlt : (2 : Int) ^ j < N
  · rw [if_pos hlt, loStage_interior N (j + 1) (by rw [h2]; omega) i hi0 hi]
  · have heq : (2 : Int) ^ j = N := by omega
    rw [if_neg hlt, loStage_succ N hj, loStep_bottom _ N j heq hi0 hi]
    split_ifs with hc
    · exact loStage_interior N j (by omega) (i - 1) (by omega) (by omega)
    · exact loStage_interior N j (by omega) i hi0 hi

theorem mem_annotsAt_main_elim {N : Int} {j : Nat} {i : Int} {tok : Token}
    (h : tok ∈ annotsAt (main (some N)) j i) :
    (2 : Int) ^ j ≤ N ∧ 0 ≤ i ∧ i < N ∧ tok ∈ cell N j i := by
  rw [annotsAt_main] at h
  split at h
  · rename_i hc
    exact ⟨hc.1, hc.2.1, hc.2.2, h⟩
  · simp at h

/-- Each iteration of the inner loop of a printed stage prints exactly one token. -/
theorem cell_eq_singleton (N : Int) (j : Nat) (hj : (2 : Int) ^ j ≤ N)
    {i : Int} (hi0 : 0 ≤ i) (hi : i < N) :
    ∃ tok, cell N j i = [tok] ∧ tok.bit = i := by
  rw [cell_of_nonneg N j hi0]
  generalize (2 : Int) ^ j = p at hj ⊢
  split_ifs <;> first | omega | exact ⟨_, rfl, rfl⟩

theorem row_eq_flatMap (N : Int) (j : Nat) (k : Nat) :
    row N j k = ((List.range k).reverse).flatMap (fun m => cell N j (m : Int)) := by
  induction k with
  | zero => rfl
  | succ k ih =>
    rw [row, ih, List.range_succ, List.reverse_append]
    rfl

theorem map_bit_row (N : Int) (j : Nat) (hj : (2 : Int) ^ j ≤ N) (k : Nat) :
    (k : Int) ≤ N →
      (row N j k).map Token.bit = ((List.range k).reverse).map (fun m => (m : Int)) := by
  induction k with
  | zero => intro _; rfl
  | succ k ih =>
    intro hk
    obtain ⟨tok, h1, h2⟩ := cell_eq_singleton N j hj (i := (k : Int)) (by omega) (by omega)
    rw [row, h1, List.range_succ, List.reverse_append, List.map_append, ih (by omega)]
    simp [h2]

theorem bitLength_of_pos {m : Nat} (hm : m ≠ 0) : bitLength m = Nat.log 2 m + 1 := by
  unfold bitLength
  exact Nat.digits_len 2 m (by decide) hm

theorem bitLength_pred_two_pow (k : Nat) : bitLength (2 ^ k - 1) = k := by
  cases k with
  | zero => simp [bitLength]
  | succ m =>
    have hpos : 0 < 2 ^ m := Nat.two_pow_pos m
    have h2 : 2 ^ (m + 1) = 2 * 2 ^ m := by ring
    rw [bitLength_of_pos (by omega)]
    rw [Nat.log_eq_of_pow_le_of_lt_pow (m := m) (by omega) (by omega)]

theorem length_main_two_pow (k : Nat) : (main (some ((2 : Int) ^ k))).length = k + 1 := by
  rw [length_main _ (one_le_two_pow_int k), log_two_pow]

/-- At a power of two the stage count is one more than `bitLength (N - 1)`. -/
theorem length_main_ne_bitLength_pred (k : Nat) :
    (main (some ((2 : Int) ^ k))).length ≠ bitLength (((2 : Int) ^ k).toNat - 1) := by
  rw [length_main_two_pow, toNat_two_pow, bitLength_pred_two_pow]
  omega

theorem two_pow_lt_iff (j k : Nat) : (2 : Int) ^ j < (2 : Int) ^ k ↔ j < k := by
  constructor
  · intro h
    by_contra hc
    have := two_pow_mono_int (Nat.le_of_not_lt hc)
    omega
  · intro h
    have h1 := two_pow_mono_int (show j + 1 ≤ k from h)
    have h2 : (2 : Int) ^ (j + 1) = 2 * (2 : Int) ^ j := by ring
    have hp : (0 : Int) < (2 : Int) ^ j := by positivity
    omega

theorem two_pow_eq_iff (j k : Nat) : (2 : Int) ^ j = (2 : Int) ^ k ↔ j = k := by
  constructor
  · intro h
    have h1 := two_pow_lt_iff j k
    have h2 := two_pow_lt_iff k j
    by_contra hc
    have : j < k ∨ k < j := by omega
    rcases this with h3 | h3
    · have := h1.mpr h3; omega
    · have := h2.mpr h3; omega
  · rintro rfl; rfl

/-- The rules of the specification at `N = 6` (`S = 3`), last stage 2, position 5:
the interior Grey rule and the last-row Pass rule both apply. -/
theorem specRules_six_last_row :
    specRules (specStageCount 6) 2 5 = [Token.grey 5 1 1, Token.pass 5] := by
  unfold specStageCount
  rw [log_six]
  decide

theorem six_not_two_pow : ¬ ∃ k : Nat, (6 : Int) = (2 : Int) ^ k := by
  rintro ⟨k, hk⟩
  have h3 : k < 3 := by
    by_contra hc
    have := two_pow_mono_int (Nat.le_of_not_lt hc)
    omega
  interval_cases k <;> simp at hk

/-! ## The claims on output order, input validation and ranges -/

/-- Claim C11: for `N ≥ 1` the stage lines are labelled `0, 1, ..., S-1` in this
order; each line is the concatenation, for the positions `N-1, N-2, ..., 0` in this
order, of the annotations of that position; and the positions read off the tokens of
a line are exactly `N-1, N-2, ..., 0`, each once. -/
theorem output_order (N : Int) (hN : 1 ≤ N) :
    (main (some N)).map StageLine.idx = List.range (Nat.log 2 N.toNat + 1)
      ∧ (∀ l ∈ main (some N),
          l.toks = ((List.range N.toNat).reverse).flatMap
            (fun m => annotsAt (main (some N)) l.idx (m : Int)))
      ∧ (∀ l ∈ main (some N),
          l.toks.map Token.bit = ((List.range N.toNat).reverse).map (fun m => (m : Int))) := by
  have hmain := main_eq_map N hN
  have hline : ∀ l ∈ main (some N), (2 : Int) ^ l.idx ≤ N ∧ l = stageLine N l.idx := by
    intro l hl
    rw [hmain, List.mem_map] at hl
    obtain ⟨j, hj, rfl⟩ := hl
    rw [List.mem_range] at hj
    exact ⟨(leLog2_iff hN j).mpr (show j ≤ Nat.log 2 N.toNat by omega), rfl⟩
  refine ⟨?_, ?_, ?_⟩
  · have h : (main (some N)).map StageLine.idx
        = (List.range (Nat.log 2 N.toNat + 1)).map (fun j => (stageLine N j).idx) := by
      rw [hmain, List.map_map]; rfl
    rw [h]
    exact List.map_id _
  · intro l hl
    obtain ⟨hj, hl2⟩ := hline l hl
    have ht : l.toks = row N l.idx N.toNat := by
      rw [hl2]; rfl
    rw [ht, row_eq_flatMap]
    apply List.flatMap_congr
    intro m hm
    have hm2 : m < N.toNat := by simpa using hm
    rw [annotsAt_main, if_pos ⟨hj, by omega, by omega⟩]
  · intro l hl
    obtain ⟨hj, hl2⟩ := hline l hl
    have ht : l.toks = row N l.idx N.toNat := by
      rw [hl2]; rfl
    rw [ht]
    exact map_bit_row N l.idx hj N.toNat (by omega)

/-- Claim C11 at `N = 8`. -/
theorem output_order_witness :
    (1 : Int) ≤ 8
      ∧ (main (some 8)).map StageLine.idx = List.range (Nat.log 2 (8 : Int).toNat + 1)
      ∧ (∀ l ∈ main (some 8),
          l.toks = ((List.range (8 : Int).toNat).reverse).flatMap
            (fun m => annotsAt (main (some 8)) l.idx (m : Int)))
      ∧ (∀ l ∈ main (some 8),
          l.toks.map Token.bit
            = ((List.range (8 : Int).toNat).reverse).map (fun m => (m : Int))) :=
  ⟨by decide, output_order 8 (by decide)⟩

/-- Claim C12, refuted at `N = 0`: the program has no error path; it returns, with
no stage line printed. -/
theorem no_error_at_zero : main (some 0) = [] := by
  unfold main
  simp only [Option.getD_some]
  exact stageLoop_neg (by decide)

/-- Claim C12, amended: for every width `N ≤ 0` the program reports no error and
prints no stage line at all. -/
theorem no_stage_of_nonpos (N : Int) (hN : N ≤ 0) : main (some N) = [] := by
  unfold main
  simp only [Option.getD_some]
  apply stageLoop_neg
  simp only [pow_zero]
  omega

/-- Claim C12, amended, at `N = -3`. -/
theorem no_stage_of_nonpos_witness : (-3 : Int) ≤ 0 ∧ main (some (-3)) = [] :=
  ⟨by decide, no_stage_of_nonpos (-3) (by decide)⟩

/-- Claim C13, refuted at the powers of two `N = 1, 2, 4, 8, 16`: the number of
stages printed differs from `bit_length(N - 1)`. -/
theorem stages_ne_bitLength_pred :
    (main (some 1)).length ≠ bitLength ((1 : Int).toNat - 1)
      ∧ (main (some 2)).length ≠ bitLength ((2 : Int).toNat - 1)
      ∧ (main (some 4)).length ≠ bitLength ((4 : Int).toNat - 1)
      ∧ (main (some 8)).length ≠ bitLength ((8 : Int).toNat - 1)
      ∧ (main (some 16)).length ≠ bitLength ((16 : Int).toNat - 1) :=
  ⟨length_main_ne_bitLength_pred 0, length_main_ne_bitLength_pred 1,
   length_main_ne_bitLength_pred 2, length_main_ne_bitLength_pred 3,
   length_main_ne_bitLength_pred 4⟩

/-- Claim C13, amended: for every `N ≥ 1` the number of stages printed is
`bit_length(N)`; at a power of two `N = 2^k` this is `bit_length(N - 1) + 1`. -/
theorem stages_eq_bitLength (N : Int) (hN : 1 ≤ N) :
    (main (some N)).length = bitLength N.toNat
      ∧ ∀ k : Nat, N = (2 : Int) ^ k →
          (main (some N)).length = bitLength (N.toNat - 1) + 1 := by
  refine ⟨?_, ?_⟩
  · rw [length_main N hN, bitLength_of_pos (by omega)]
  · rintro k rfl
    rw [length_main_two_pow, toNat_two_pow, bitLength_pred_two_pow]

/-- Claim C13, amended, at `N = 8`. -/
theorem stages_eq_bitLength_witness :
    (1 : Int) ≤ 8
      ∧ (main (some 8)).length = bitLength (8 : Int).toNat
      ∧ ∀ k : Nat, (8 : Int) = (2 : Int) ^ k →
          (main (some 8)).length = bitLength ((8 : Int).toNat - 1) + 1 :=
  ⟨by decide, stages_eq_bitLength 8 (by decide)⟩

/-- Claim C14: for `N ≥ 1` and an emitted stage `j`, position 0 gets exactly one
token, and it is Pass. -/
theorem position_zero_pass (N : Int) (_hN : 1 ≤ N) (j : Nat)
    (hj : stagePrinted (main (some N)) j) :
    annotsAt (main (some N)) j 0 = [Token.pass 0] := by
  rw [stagePrinted_main] at hj
  have hp : (0 : Int) < (2 : Int) ^ j := by positivity
  rw [annotsAt_main, if_pos ⟨hj, le_refl _, by omega⟩, cell_of_nonneg N j (le_refl _)]
  generalize (2 : Int) ^ j = p at hj hp ⊢
  split_ifs <;> first | rfl | omega

/-- Claim C14 at `N = 1`, stage 0. -/
theorem position_zero_pass_witness :
    annotsAt (main (some 1)) 0 0 = [Token.pass 0] :=
  position_zero_pass 1 (by decide) 0 ((stagePrinted_main 1 0).mpr (by decide))

/-- Claim C15: for `N ≥ 1`, a bottom Grey token is printed at `(j, i)`, `0 ≤ i < N`,
exactly when `N = 2^j`, `i` is even and `i > 0`.  Hence, when `N` is not a power of
two, no bottom Grey token is printed at any stage, and every even position of every
emitted stage gets Pass and nothing else. -/
theorem greyEnd_emitted_iff (N : Int) (_hN : 1 ≤ N) :
    (∀ (j : Nat) (i : Int), 0 ≤ i → i < N →
        ((∃ s t : Int, Token.greyEnd i s t ∈ annotsAt (main (some N)) j i)
          ↔ N = (2 : Int) ^ j ∧ i % 2 = 0 ∧ 0 < i))
      ∧ ((¬ ∃ k : Nat, N = (2 : Int) ^ k) →
          (∀ (j : Nat) (i s t : Int),
              Token.greyEnd i s t ∉ annotsAt (main (some N)) j i)
            ∧ (∀ (j : Nat) (i : Int), stagePrinted (main (some N)) j →
                0 ≤ i → i < N → i % 2 = 0 →
                annotsAt (main (some N)) j i = [Token.pass i])) := by
  have key : ∀ (j : Nat) (i s t : Int), Token.greyEnd i s t ∈ annotsAt (main (some N)) j i →
      N = (2 : Int) ^ j ∧ i % 2 = 0 ∧ 0 < i := by
    intro j i s t hmem
    obtain ⟨hj, hi0, hi, hc⟩ := mem_annotsAt_main_elim hmem
    rw [cell_of_nonneg N j hi0] at hc
    simp only [List.mem_append] at hc
    rcases hc with ((h | h) | h) | h <;> split at h <;> simp at h
    rename_i hcond
    exact ⟨hcond.2.1.symm, hcond.1, hcond.2.2⟩
  refine ⟨?_, ?_⟩
  · intro j i hi0 hi
    constructor
    · rintro ⟨s, t, hmem⟩
      exact key j i s t hmem
    · rintro ⟨hN2, hev, hpos⟩
      refine ⟨(j : Int) - 1, i - 1, ?_⟩
      rw [mem_annotsAt_main (le_of_eq hN2.symm) hi0 hi, cell_of_nonneg N j hi0]
      simp only [List.mem_append]
      left; right
      rw [if_pos ⟨hev, hN2.symm, hpos⟩]
      simp
  · intro hnp
    refine ⟨?_, ?_⟩
    · intro j i s t hmem
      exact hnp ⟨j, (key j i s t hmem).1⟩
    · intro j i hj hi0 hi hev
      rw [stagePrinted_main] at hj
      have hne : (2 : Int) ^ j ≠ N := fun h => hnp ⟨j, h.symm⟩
      rw [annotsAt_main, if_pos ⟨hj, hi0, hi⟩, cell_of_nonneg N j hi0]
      generalize (2 : Int) ^ j = p at hj hne ⊢
      split_ifs <;> first | rfl | omega

/-- Claim C15 at `N = 6`, which is not a power of two: position 4 of the last
stage gets Pass only. -/
theorem greyEnd_emitted_iff_witness :
    annotsAt (main (some 6)) 2 4 = [Token.pass 4] :=
  ((greyEnd_emitted_iff 6 (by decide)).2 six_not_two_pow).2 2 4
    ((stagePrinted_main 6 2).mpr (by decide)) (by decide) (by decide) (by decide)

/-- Claim C16: for a power of two `N = 2^k`, after the last stage `k` every
position `0 ≤ i < N` has low end 0, both as `lo(k, i)` and over the whole output. -/
theorem prefix_complete_pow_two (k : Nat) (i : Int) (hi0 : 0 ≤ i)
    (hi : i < (2 : Int) ^ k) :
    loStage (main (some ((2 : Int) ^ k))) (k + 1) i = 0
      ∧ lo (main (some ((2 : Int) ^ k))) i = 0 := by
  have h1 : loStage (main (some ((2 : Int) ^ k))) (k + 1) i = 0 := by
    rw [loStage_emitted _ k (le_refl _) hi0 hi, if_neg (lt_irrefl _)]
    unfold loInterior
    generalize (2 : Int) ^ k = p at hi
    split_ifs <;> omega
  refine ⟨h1, ?_⟩
  have h2 := loStage_last ((2 : Int) ^ k) (one_le_two_pow_int k)
  rw [log_two_pow] at h2
  rw [← h2]; exact h1

/-- Claim C16 at `N = 8 = 2^3`, position 6. -/
theorem prefix_complete_pow_two_witness :
    loStage (main (some ((2 : Int) ^ 3))) (3 + 1) 6 = 0
      ∧ lo (main (some ((2 : Int) ^ 3))) 6 = 0 :=
  prefix_complete_pow_two 3 6 (by decide) (by decide)

/-- Claim C17: for `N ≥ 1`, a Grey or bottom Grey token printed at `(j, i)` has
`lo(j, i) = 0`, and a Black token printed at `(j, i)` has `lo(j, i) > 0`. -/
theorem grey_black_sound (N : Int) (_hN : 1 ≤ N) (j : Nat) (i : Int) :
    (∀ s t : Int, Token.grey i s t ∈ annotsAt (main (some N)) j i →
        loStage (main (some N)) (j + 1) i = 0)
      ∧ (∀ s t : Int, Token.greyEnd i s t ∈ annotsAt (main (some N)) j i →
        loStage (main (some N)) (j + 1) i = 0)
      ∧ (∀ s t : Int, Token.black i s t ∈ annotsAt (main (some N)) j i →
        0 < loStage (main (some N)) (j + 1) i) := by
  have h2 : (2 : Int) ^ (j + 1) = 2 * (2 : Int) ^ j := by ring
  refine ⟨?_, ?_, ?_⟩ <;> intro s t hmem <;>
    obtain ⟨hj, hi0, hi, hc⟩ := mem_annotsAt_main_elim hmem <;>
    rw [loStage_emitted N j hj hi0 hi] <;>
    rw [cell_of_nonneg N j hi0] at hc <;>
    simp only [List.mem_append] at hc <;>
    unfold loInterior <;>
    rw [h2] <;>
    generalize (2 : Int) ^ j = p at hj hc ⊢ <;>
    rcases hc with ((h | h) | h) | h <;> split at h <;> simp at h <;>
    split_ifs <;> omega

/-- Claim C17 at `N = 8`: the Grey token at `(2, 5)`, the bottom Grey token at
`(3, 6)` and the Black token at `(0, 7)`. -/
theorem grey_black_sound_witness :
    loStage (main (some 8)) (2 + 1) 5 = 0
      ∧ loStage (main (some 8)) (3 + 1) 6 = 0
      ∧ 0 < loStage (main (some 8)) (0 + 1) 7 :=
  ⟨(grey_black_sound 8 (by decide) 2 5).1 1 1 (by rw [annotsAt_main]; decide),
   (grey_black_sound 8 (by decide) 3 6).2.1 2 5 (by rw [annotsAt_main]; decide),
   (grey_black_sound 8 (by decide) 0 7).2.2 (-1) 6 (by rw [annotsAt_main]; decide)⟩

/-- Claim C18: for `N ≥ 1`, whenever a combining token with target `t` is printed at
`(j, i)`, the range of `i` coming into stage `j` starts at `t + 1`:
`lo(j-1, i) = t + 1`. -/
theorem ranges_adjacent (N : Int) (_hN : 1 ≤ N) (j : Nat) (i : Int) (tok : Token)
    (htok : tok ∈ annotsAt (main (some N)) j i) (t : Int) (ht : tok.target = some t) :
    loStage (main (some N)) j i = t + 1 := by
  obtain ⟨hj, hi0, hi, hc⟩ := mem_annotsAt_main_elim htok
  rw [loStage_interior N j (by omega) i hi0 hi]
  rw [cell_of_nonneg N j hi0] at hc
  simp only [List.mem_append] at hc
  unfold loInterior
  have hp : (0 : Int) < (2 : Int) ^ j := by positivity
  generalize (2 : Int) ^ j = p at hj hp hc ⊢
  rcases hc with ((h | h) | h) | h <;> split at h <;> simp at h <;> subst h <;>
    simp [Token.target] at ht <;> subst ht <;> split_ifs <;> omega

/-- Claim C18 at `N = 8`, stage 3, position 6: the bottom Grey token has target 5
and the incoming range of position 6 starts at 6. -/
theorem ranges_adjacent_witness :
    Token.greyEnd 6 2 5 ∈ annotsAt (main (some 8)) 3 6
      ∧ loStage (main (some 8)) 3 6 = 5 + 1 :=
  have h : Token.greyEnd 6 2 5 ∈ annotsAt (main (some 8)) 3 6 := by
    rw [annotsAt_main]; decide
  ⟨h, ranges_adjacent 8 (by decide) 3 6 (Token.greyEnd 6 2 5) h 5 rfl⟩

/-- Claim C19: for a power of two `N = 2^k`, at every stage `j < S` and position
`0 ≤ i < N` the program prints exactly the annotations given by the four rules of
the specification with `S = floor(log2 N) + 1` and bottom stage `S - 1` (the same
tokens, in the same order, hence the same set). -/
theorem refines_spec_rules_pow_two (N : Int) (k : Nat) (hN : N = (2 : Int) ^ k)
    (j : Nat) (hj : j < specStageCount N) (i : Int) (hi0 : 0 ≤ i) (hi : i < N) :
    annotsAt (main (some N)) j i = specRules (specStageCount N) j i := by
  subst hN
  have hS : specStageCount ((2 : Int) ^ k) = k + 1 := by
    unfold specStageCount; rw [log_two_pow]
  rw [hS] at hj ⊢
  have hle : (2 : Int) ^ j ≤ (2 : Int) ^ k := two_pow_mono_int (by omega)
  rw [annotsAt_main, if_pos ⟨hle, hi0, hi⟩, cell_of_nonneg _ j hi0]
  unfold specRules
  have e1 : ((2 : Int) ^ j = (2 : Int) ^ k) ↔ j = k + 1 - 1 := by
    rw [two_pow_eq_iff]; simp
  have e2 : ((2 : Int) ^ j < (2 : Int) ^ k) ↔ j < k + 1 - 1 := by
    rw [two_pow_lt_iff]; simp
  simp only [e1, e2]
  generalize (2 : Int) ^ j = p
  split_ifs <;> first | rfl | omega

/-- Claim C19 at `N = 8 = 2^3`, stage 3, position 6. -/
theorem refines_spec_rules_pow_two_witness :
    annotsAt (main (some 8)) 3 6 = specRules (specStageCount 8) 3 6 :=
  refines_spec_rules_pow_two 8 3 (by decide) 3
    (by unfold specStageCount; rw [log_eight]; decide) 6 (by decide) (by decide)

end HanCarlson
